import Mathlib

/-!
Verification of the Bloom group-formation engine.

The definitions below are a shallow embedding of the SOTRIM worker algorithm
(src/garf-production/worker/sotrim_algo.py) and of the API grouping engine
(src/garf-production/api/app/services/grouping_engine.py).  Python floats are
modelled as rationals; a NaN cell is modelled as `none`.  Python sets whose
only observable use is membership are modelled as lists.  The candidate pools
iterated by the algorithm are ascending lists of dataframe row indices, and
the iteration order of the sets built from them is modelled as that ascending
order.
-/

/-!  Normalization of flexible answers (sotrim_algo.build_normalization_rules,
normalize_answer).  A context holds the distinct string values observed in one
survey column together with the configured FLEXIBLE_ANSWERS set. -/

structure NormCtx where
  colValues : List String
  flex : List String
deriving DecidableEq

/-- Observed values of the column that are flexible answers
(flexible_in_col in build_normalization_rules). -/
def flexibleInCol (c : NormCtx) : List String :=
  c.colValues.filter (fun v => decide (v ∈ c.flex))

/-- Observed values of the column that are concrete, i.e. not flexible
(concrete_in_col in build_normalization_rules). -/
def concreteInCol (c : NormCtx) : List String :=
  c.colValues.filter (fun v => decide (v ∉ c.flex))

/-- NORMALIZATION_RULES has an entry for the column iff the column has both
flexible and concrete observed values. -/
def hasRules (c : NormCtx) : Bool :=
  !(flexibleInCol c).isEmpty && !(concreteInCol c).isEmpty

/-- Embeds normalize_answer: a flexible answer of a column with rules expands
to all concrete observed values of the column, anything else stays a
singleton. -/
def normalize_answer (c : NormCtx) (ans : String) : List String :=
  if hasRules c && decide (ans ∈ flexibleInCol c) then concreteInCol c else [ans]

/-- Non-empty set intersection, i.e. the negation of isdisjoint. -/
def overlap (a b : List String) : Bool :=
  a.any (fun x => decide (x ∈ b))

/-- Pairwise hard-categorical check of pass_pairwise_cuts and of the
categorical layer of build_compatibility_matrix_vectorized: the normalized
sets of the two answers intersect. -/
def categorical_pass (c : NormCtx) (a b : String) : Bool :=
  overlap (normalize_answer c a) (normalize_answer c b)

/-- Comma-splitting of a multi-choice cell: split on commas, trim, drop empty
parts. -/
def splitParts (s : String) : List String :=
  ((s.splitOn (",")).map String.trim).filter (fun p => decide (p ≠ ("")))

/-- Embeds to_set for string cells: a NaN (`none`) or empty cell gives the
empty set, otherwise the union of the normalized comma-separated parts.
(The source also accepts Python list cells; the worker dataframes hold
strings, which is what is modelled.) -/
def to_set (c : NormCtx) (val : Option String) : List String :=
  match val with
  | none => []
  | some s =>
    if s = ("") then []
    else (splitParts s).foldl
      (fun acc p => acc ++ (normalize_answer c p).filter (fun x => decide (x ∉ acc))) []

/-!  Age rules (sotrim_algo.check_age_compatibility, pass_group_constraints). -/

structure AgeBand where
  lo : ℚ
  hi : ℚ
  maxSpread : Option ℚ
deriving DecidableEq

def defBand : AgeBand := ⟨0, 0, none⟩

structure AgeRules where
  bands : List AgeBand
  allowCrossBand : Bool
  /-- Legacy pairwise rule max_age_difference; `none` when absent. -/
  maxAgeDifference : Option ℚ
  /-- group_constraints.max_age_difference. -/
  groupMaxDiff : Option ℚ
  /-- group_constraints.max_age_std. -/
  groupMaxStd : Option ℚ
deriving DecidableEq

/-- Indices of the bands containing an age (the bands1 and bands2 scans). -/
def bandIdxs (R : AgeRules) (a : ℚ) : List ℕ :=
  (List.range R.bands.length).filter
    (fun i => decide ((R.bands.getD i defBand).lo ≤ a ∧ a ≤ (R.bands.getD i defBand).hi))

def spreadOf (R : AgeRules) (i : ℕ) : Option ℚ :=
  (R.bands.getD i defBand).maxSpread

/-- Accumulation of min_max_spread; the initial float infinity is `none`. -/
def minSpreadFold (l : List ℚ) : Option ℚ :=
  l.foldl (fun acc s =>
    match acc with
    | none => some s
    | some m => some (min m s)) none

/-- Accumulation of max_max_spread, starting at 0. -/
def maxSpreadFold (l : List ℚ) : ℚ :=
  l.foldl max 0

/-- The shared bands of two ages (common_bands). -/
def sharedBands (R : AgeRules) (x y : ℚ) : List ℕ :=
  (bandIdxs R x).filter (fun i => decide (i ∈ bandIdxs R y))

/-- Embeds check_age_compatibility on two present (non-NaN) ages. -/
def check_age_compatibility (R : AgeRules) (x y : ℚ) : Bool :=
  match R.maxAgeDifference with
  | some d => decide (|x - y| ≤ d)
  | none =>
    if (bandIdxs R x).isEmpty || (bandIdxs R y).isEmpty then false
    else if !(sharedBands R x y).isEmpty then
      match minSpreadFold ((sharedBands R x y).filterMap (spreadOf R)) with
      | none => true
      | some m => decide (|x - y| ≤ m)
    else if !R.allowCrossBand then false
    else decide (|x - y| ≤ maxSpreadFold ((bandIdxs R x ++ bandIdxs R y).filterMap (spreadOf R)))

/-- check_age_compatibility including its leading guard: absent rules or a
NaN age give false. -/
def check_age_compatibility_opt (R? : Option AgeRules) (a b : Option ℚ) : Bool :=
  match R?, a, b with
  | some R, some x, some y => check_age_compatibility R x y
  | _, _, _ => false

/-!  Feature rows and the hard-constraint configuration of the worker. -/

/-- One dataframe row, restricted to the columns the engine reads: the hard
categorical cells (stringified), the hard multi-choice cells, the parsed hard
numeric cells, the parsed age, and the soft-scoring columns. -/
structure Row where
  cats : List String
  multis : List (Option String)
  nums : List (Option ℚ)
  age : Option ℚ
  softNums : List (Option ℚ)
  softCats : List String
  softMultis : List (Option String)
deriving DecidableEq

def defRow : Row := ⟨[], [], [], none, [], [], []⟩

inductive CatMode
  | diversity
  | balance
deriving DecidableEq

structure Weights where
  beta : ℚ
  gamma : ℚ
  kappa : ℚ
  mu : ℚ
deriving DecidableEq

/-- The worker configuration: CUT_CATEGORICAL (one normalization context per
field), CUT_MULTI, CUT_NUMERIC_TOL, AGE_RULES, GROUP_SIZE, the scoring
weights, and the soft-scoring field lists. -/
structure AlgoCfg where
  catRules : List NormCtx
  multiRules : List NormCtx
  tols : List ℚ
  ageRules : Option AgeRules
  groupSize : ℕ
  weights : Weights
  softNumCount : ℕ
  softCatModes : List CatMode
  softMultiRules : List NormCtx
deriving DecidableEq

/-- Weights of the hardcoded fallback configuration in load_config:
beta_diversity 1.0, gamma_similarity 0.2, categorical_diversity 0.1,
multi_choice_overlap 0.1. -/
def defaultConfigWeights : Weights := ⟨1, 1/5, 1/10, 1/10⟩

/-!  The compatibility matrix layers
(sotrim_algo.build_compatibility_matrix_vectorized, dense path). -/

/-- Off-diagonal entry of the numeric-tolerance layer.  The numpy staging is:
compare absolute differences against the tolerance (a comparison with NaN is
false), force the diagonal, zero the NaN rows and columns, force the diagonal
again; off the diagonal this is: both values present and within tolerance. -/
def numLayer (tol : ℚ) (a b : Option ℚ) : Bool :=
  match a, b with
  | some x, some y => decide (|x - y| ≤ tol)
  | _, _ => false

/-- The full numeric-tolerance layer for one column of values, diagonal
included. -/
def numericTolLayer (tol : ℚ) (vals : List (Option ℚ)) (i j : ℕ) : Bool :=
  if i = j then true else numLayer tol (vals.getD i none) (vals.getD j none)

/-- The multi-choice layer for one column of cells, diagonal included: off
the diagonal the converted sets must intersect. -/
def multiChoiceLayer (c : NormCtx) (vals : List (Option String)) (i j : ℕ) : Bool :=
  if i = j then true else overlap (to_set c (vals.getD i none)) (to_set c (vals.getD j none))

/-- Off-diagonal entry of the age layer: true when rules are absent (the age
block is skipped), otherwise both ages must be present and compatible. -/
def ageLayerOpt (R? : Option AgeRules) (a b : Option ℚ) : Bool :=
  match R? with
  | none => true
  | some R =>
    match a, b with
    | some x, some y => check_age_compatibility R x y
    | _, _ => false

/-- Conjunction of all off-diagonal layers for one pair of rows. -/
def pairCompat (cfg : AlgoCfg) (ri rj : Row) : Bool :=
  (List.range cfg.catRules.length).all (fun k =>
    categorical_pass (cfg.catRules.getD k ⟨[], []⟩) (ri.cats.getD k ("")) (rj.cats.getD k (""))) &&
  (List.range cfg.multiRules.length).all (fun k =>
    overlap (to_set (cfg.multiRules.getD k ⟨[], []⟩) (ri.multis.getD k none))
            (to_set (cfg.multiRules.getD k ⟨[], []⟩) (rj.multis.getD k none))) &&
  ageLayerOpt cfg.ageRules ri.age rj.age &&
  (List.range cfg.tols.length).all (fun k =>
    numLayer (cfg.tols.getD k 0) (ri.nums.getD k none) (rj.nums.getD k none))

/-- Embeds build_compatibility_matrix_vectorized over the rows of one
subspace: all layers are intersected and the diagonal is forced true at the
end. -/
def build_compatibility_matrix (cfg : AlgoCfg) (rows : List Row) (i j : ℕ) : Bool :=
  if i = j then true
  else pairCompat cfg (rows.getD i defRow) (rows.getD j defRow)

/-!  Group quality score (sotrim_algo.group_score).  The only operation of the
source that has no exact rational counterpart is the Euclidean norm
np.linalg.norm used inside the similarity bonus; it is threaded through as an
explicit parameter `dist` applied to the coordinate-difference vector, so the
rest of the scorer stays executable and exact.  The memoization cache is
semantically transparent and is not modelled. -/

def qsum (l : List ℚ) : ℚ := l.foldl (· + ·) 0

def qmean (l : List ℚ) : ℚ := qsum l / l.length

/-- pandas Series.var, the sample variance with ddof 1 (only evaluated on
lists of length at least 2). -/
def sampleVar (l : List ℚ) : ℚ :=
  qsum (l.map (fun v => (v - qmean l) ^ 2)) / ((l.length : ℚ) - 1)

/-- numpy population variance (np.std squared, ddof 0). -/
def popVar (l : List ℚ) : ℚ :=
  qsum (l.map (fun v => (v - qmean l) ^ 2)) / l.length

def qminList (l : List ℚ) : ℚ :=
  match l with
  | [] => 0
  | x :: xs => xs.foldl min x

def qmaxList (l : List ℚ) : ℚ :=
  match l with
  | [] => 0
  | x :: xs => xs.foldl max x

/-- Present values of one soft numeric column over the group rows
(pd.to_numeric(...).dropna()). -/
def colVals (rows : List Row) (k : ℕ) : List ℚ :=
  rows.filterMap (fun r => r.softNums.getD k none)

/-- div_vars: the sample variances of the soft numeric columns with more than
one present value. -/
def divVars (cfg : AlgoCfg) (rows : List Row) : List ℚ :=
  ((List.range cfg.softNumCount).filter (fun k => decide (1 < (colVals rows k).length))).map
    (fun k => sampleVar (colVals rows k))

/-- Diversity term: mean of div_vars, 0 when empty. -/
def diversityTerm (cfg : AlgoCfg) (rows : List Row) : ℚ :=
  if divVars cfg rows = [] then 0 else qmean (divVars cfg rows)

/-- Columns that are not all-NaN over the group (valid_cols). -/
def validCols (cfg : AlgoCfg) (rows : List Row) : List ℕ :=
  (List.range cfg.softNumCount).filter (fun k => !(colVals rows k).isEmpty)

/-- Min-max normalized coordinate of a row in one column; a zero observed
range is replaced by denominator 1; a missing value stays missing (NaN). -/
def normCoord (rows : List Row) (k : ℕ) (r : Row) : Option ℚ :=
  match r.softNums.getD k none with
  | none => none
  | some v =>
    let mn := qminList (colVals rows k)
    let mx := qmaxList (colVals rows k)
    let dnm := if mx - mn = 0 then 1 else mx - mn
    some ((v - mn) / dnm)

/-- itertools.combinations(range n, 2). -/
def pairList (n : ℕ) : List (ℕ × ℕ) :=
  (List.range n).flatMap (fun i => ((List.range n).filter (fun j => decide (i < j))).map (fun j => (i, j)))

/-- Normalized coordinates of a row over the valid columns. -/
def rowCoords (cfg : AlgoCfg) (rows : List Row) (r : Row) : List (Option ℚ) :=
  (validCols cfg rows).map (fun k => normCoord rows k r)

/-- Distances of the pairs whose two rows have no NaN coordinate
(valid_pairs). -/
def pairDists (cfg : AlgoCfg) (dist : List ℚ → ℚ) (rows : List Row) : List ℚ :=
  (pairList rows.length).filterMap (fun p =>
    let ci := rowCoords cfg rows (rows.getD p.1 defRow)
    let cj := rowCoords cfg rows (rows.getD p.2 defRow)
    if ci.any (fun o => o.isNone) || cj.any (fun o => o.isNone) then none
    else some (dist (List.zipWith (fun a b => a - b) (ci.filterMap id) (cj.filterMap id))))

/-- Similarity bonus: inverse of one plus the mean pairwise distance on the
min-max-normalized soft numeric features; 0 for groups below size 2, when
div_vars is empty, when every column is all-NaN, or when no valid pair
exists. -/
def simTerm (cfg : AlgoCfg) (dist : List ℚ → ℚ) (rows : List Row) : ℚ :=
  if 2 ≤ rows.length ∧ divVars cfg rows ≠ [] then
    if (validCols cfg rows).isEmpty then 0
    else if pairDists cfg dist rows = [] then 0
    else 1 / (1 + qmean (pairDists cfg dist rows))
  else 0

/-- Per-field soft categorical contribution: unique count over group size in
diversity mode; in balance mode min 1 (unique count over 3) once there is
more than one distinct value. -/
def catFieldScore (mode : CatMode) (rows : List Row) (k : ℕ) : ℚ :=
  let values := rows.map (fun r => (r.softCats.getD k ("")).trim)
  let uniq := values.dedup.length
  match mode with
  | CatMode.diversity => (uniq : ℚ) / rows.length
  | CatMode.balance => if 1 < uniq then min 1 ((uniq : ℚ) / 3) else 0

def catTerm (cfg : AlgoCfg) (rows : List Row) : ℚ :=
  qsum ((List.range cfg.softCatModes.length).map (fun k =>
    catFieldScore (cfg.softCatModes.getD k CatMode.diversity) rows k))

/-- Jaccard ratios of the pairs with non-empty union for one soft multi
field. -/
def jaccardPairs (c : NormCtx) (rows : List Row) (k : ℕ) : List ℚ :=
  let sets := rows.map (fun r => to_set c (r.softMultis.getD k none))
  (pairList sets.length).filterMap (fun p =>
    let A := sets.getD p.1 []
    let B := sets.getD p.2 []
    let u := (A ++ B.filter (fun x => decide (x ∉ A))).length
    if 0 < u then some (((A.filter (fun x => decide (x ∈ B))).length : ℚ) / u) else none)

def multiTerm (cfg : AlgoCfg) (rows : List Row) : ℚ :=
  qsum ((List.range cfg.softMultiRules.length).map (fun k =>
    let ps := jaccardPairs (cfg.softMultiRules.getD k ⟨[], []⟩) rows k
    if ps = [] then 0 else qmean ps))

/-- Embeds group_score: -10^9 for an empty group, otherwise the weighted sum
of the four soft terms. -/
def group_score (cfg : AlgoCfg) (dist : List ℚ → ℚ) (rows : List Row) : ℚ :=
  if rows.isEmpty then -(10 ^ 9)
  else
    cfg.weights.beta * diversityTerm cfg rows +
    cfg.weights.gamma * simTerm cfg dist rows +
    cfg.weights.kappa * catTerm cfg rows +
    cfg.weights.mu * multiTerm cfg rows

/-!  Whole-group constraints (sotrim_algo.pass_group_constraints). -/

/-- Index of the first band containing the age, -1 when none (band_id). -/
def band_id (R : AgeRules) (a : ℚ) : ℤ :=
  match (List.range R.bands.length).find?
      (fun i => decide ((R.bands.getD i defBand).lo ≤ a ∧ a ≤ (R.bands.getD i defBand).hi)) with
  | some i => (i : ℤ)
  | none => -1

def qRange (l : List ℚ) : ℚ := qmaxList l - qminList l

/-- Embeds pass_group_constraints on the (coerced) ages of a candidate group.
Any missing age rejects the group.  The source compares np.std(ages) with
max_age_std; staying in ℚ this is expressed as comparing the population
variance with the squared (nonnegative) bound, which is equivalent. -/
def pass_group_constraints (R? : Option AgeRules) (ages : List (Option ℚ)) : Bool :=
  match R? with
  | none => true
  | some R =>
    if ages.any (fun a => a.isNone) then false
    else
      let xs := ages.filterMap id
      (match R.groupMaxDiff with
       | none => true
       | some d => decide (qRange xs ≤ d)) &&
      (match R.groupMaxStd with
       | none => true
       | some s => decide (0 ≤ s ∧ popVar xs ≤ s ^ 2)) &&
      (if !R.bands.isEmpty && !R.allowCrossBand then
        decide ((xs.map (band_id R)).dedup.length ≤ 1)
       else true)

/-!  Greedy group builder (sotrim_algo.build_one_group_optimized).  A
candidate is carried as a pair of its global dataframe index and its local
index into the compatibility matrix (the zip of candidates and
local_indices). -/

/-- Compatibility degree: row sum of the matrix over the local indices,
excluding self. -/
def degreeOf (compat : ℕ → ℕ → Bool) (locals : List ℕ) (l : ℕ) : ℕ :=
  ((locals.filter (fun j => decide (j ≠ l))).filter (fun j => compat l j)).length

/-- Seed selection: the first candidate attaining the minimal compatibility
degree, in candidate order (min over the insertion-ordered counts dict). -/
def seedOf (compat : ℕ → ℕ → Bool) (ps : List (ℕ × ℕ)) : Option (ℕ × ℕ) :=
  ps.foldl (fun best p =>
    match best with
    | none => some p
    | some b =>
      if degreeOf compat (ps.map Prod.snd) p.2 < degreeOf compat (ps.map Prod.snd) b.2
      then some p else b) none

/-- The feasibility filter of one extension step: compatible with every
current member and passing the whole-group constraints with the candidate
appended. -/
def feasibleFilter (compat : ℕ → ℕ → Bool) (groupOk : List ℕ → Bool)
    (group : List (ℕ × ℕ)) (remaining : List (ℕ × ℕ)) : List (ℕ × ℕ) :=
  remaining.filter (fun x =>
    group.all (fun g => compat x.2 g.2) && groupOk ((group.map Prod.fst) ++ [x.1]))

/-- The argmax scan of one extension step: best_score starts at -10^9 and a
candidate replaces the current best only when its score is strictly
greater. -/
def pickBest (scoreFn : List ℕ → ℚ) (groupG : List ℕ) (feas : List (ℕ × ℕ)) :
    Option (ℕ × ℕ) :=
  (feas.foldl (fun st x =>
    let s := scoreFn (groupG ++ [x.1])
    if st.2 < s then (some x, s) else st)
    ((none : Option (ℕ × ℕ)), -(10 ^ 9 : ℚ))).1

/-- The while loop of build_one_group_optimized.  The fuel argument only
bounds the iteration count; every continuing iteration removes the chosen
candidate from the remaining pool, so a fuel of the initial pool size is
never exhausted. -/
def extendLoop (scoreFn : List ℕ → ℚ) (groupOk : List ℕ → Bool)
    (compat : ℕ → ℕ → Bool) (groupSize : ℕ) :
    ℕ → List (ℕ × ℕ) → List (ℕ × ℕ) → List (ℕ × ℕ)
  | 0, group, _ => group
  | fuel + 1, group, remaining =>
    if group.length < groupSize ∧ remaining ≠ [] then
      match pickBest scoreFn (group.map Prod.fst)
          (feasibleFilter compat groupOk group remaining) with
      | none => group
      | some x =>
        extendLoop scoreFn groupOk compat groupSize fuel (group ++ [x])
          (remaining.filter (fun p => decide (p.1 ≠ x.1)))
    else group

/-- Embeds build_one_group_optimized: pick the seed, extend greedily, and
return the global indices when the assembled group reaches the hardcoded
minimum size 4, the empty list otherwise. -/
def build_one_group (scoreFn : List ℕ → ℚ) (groupOk : List ℕ → Bool)
    (compat : ℕ → ℕ → Bool) (candidates localIndices : List ℕ) (groupSize : ℕ) :
    List ℕ :=
  if candidates.isEmpty || localIndices.isEmpty then []
  else
    match seedOf compat (candidates.zip localIndices) with
    | none => []
    | some s =>
      if 4 ≤ (extendLoop scoreFn groupOk compat groupSize (candidates.zip localIndices).length
          [s] ((candidates.zip localIndices).filter (fun p => decide (p.1 ≠ s.1)))).length
      then (extendLoop scoreFn groupOk compat groupSize (candidates.zip localIndices).length
          [s] ((candidates.zip localIndices).filter (fun p => decide (p.1 ≠ s.1)))).map Prod.fst
      else []

/-!  Run driver (sotrim_algo.make_groups). -/

/-- The score function the builder is called with: group_score on the rows of
the global indices. -/
def scoreFnOf (cfg : AlgoCfg) (dist : List ℚ → ℚ) (df : List Row) : List ℕ → ℚ :=
  fun g => group_score cfg dist (g.map (fun i => df.getD i defRow))

/-- The whole-group check the builder is called with: pass_group_constraints
on the ages of the global indices. -/
def groupOkOf (cfg : AlgoCfg) (df : List Row) : List ℕ → Bool :=
  fun g => pass_group_constraints cfg.ageRules (g.map (fun i => (df.getD i defRow).age))

/-- Subspace keys in first-occurrence order (the insertion order of the
defaultdict built by partition_into_subspaces). -/
def firstKeys (df : List Row) : List (List String) :=
  df.foldl (fun acc r => if decide (r.cats ∈ acc) then acc else acc ++ [r.cats]) []

/-- The row indices of one subspace bucket, in dataframe order. -/
def bucketOf (df : List Row) (k : List String) : List ℕ :=
  (List.range df.length).filter (fun i => decide ((df.getD i defRow).cats = k))

/-- The inner while loop of make_groups for one subspace.  The compatibility
matrix is the one built over the initial pool of the subspace and is not
rebuilt (as in the source); local indices are recomputed against the current
pool by list position.  Fuel only bounds the iteration count.  The local
bindings available, locals and g of the source are written out inline. -/
def subspaceLoop (cfg : AlgoCfg) (dist : List ℚ → ℚ) (df : List Row)
    (compat : ℕ → ℕ → Bool) :
    ℕ → List ℕ → List (List ℕ) → List ℕ → List (List ℕ) × List ℕ
  | 0, _, groups, used => (groups, used)
  | fuel + 1, pool, groups, used =>
    if (pool.filter (fun i => decide (i ∉ used))).length < 4 then (groups, used)
    else if (build_one_group (scoreFnOf cfg dist df) (groupOkOf cfg df) compat
        (pool.filter (fun i => decide (i ∉ used)))
        ((pool.filter (fun i => decide (i ∉ used))).map
          (fun i => pool.findIdx (fun j => decide (j = i)))) cfg.groupSize).isEmpty
    then (groups, used)
    else
      subspaceLoop cfg dist df compat fuel
        (pool.filter (fun i => decide (i ∉ used ++
          build_one_group (scoreFnOf cfg dist df) (groupOkOf cfg df) compat
            (pool.filter (fun i => decide (i ∉ used)))
            ((pool.filter (fun i => decide (i ∉ used))).map
              (fun i => pool.findIdx (fun j => decide (j = i)))) cfg.groupSize)))
        (groups ++ [build_one_group (scoreFnOf cfg dist df) (groupOkOf cfg df) compat
          (pool.filter (fun i => decide (i ∉ used)))
          ((pool.filter (fun i => decide (i ∉ used))).map
            (fun i => pool.findIdx (fun j => decide (j = i)))) cfg.groupSize])
        (used ++ build_one_group (scoreFnOf cfg dist df) (groupOkOf cfg df) compat
          (pool.filter (fun i => decide (i ∉ used)))
          ((pool.filter (fun i => decide (i ∉ used))).map
            (fun i => pool.findIdx (fun j => decide (j = i)))) cfg.groupSize)

/-- Processing of one subspace bucket inside the make_groups loop. -/
def runBucket (cfg : AlgoCfg) (dist : List ℚ → ℚ) (df : List Row)
    (st : List (List ℕ) × List ℕ) (k : List String) : List (List ℕ) × List ℕ :=
  if ((bucketOf df k).filter (fun i => decide (i ∉ st.2))).length < 4 then st
  else
    subspaceLoop cfg dist df
      (build_compatibility_matrix cfg
        (((bucketOf df k).filter (fun i => decide (i ∉ st.2))).map (fun i => df.getD i defRow)))
      ((bucketOf df k).filter (fun i => decide (i ∉ st.2))).length
      ((bucketOf df k).filter (fun i => decide (i ∉ st.2))) st.1 st.2

/-- Embeds make_groups: partition into subspaces and form groups greedily in
each, sharing the used set across subspaces. -/
def make_groups (cfg : AlgoCfg) (dist : List ℚ → ℚ) (df : List Row) : List (List ℕ) :=
  ((firstKeys df).foldl (runBucket cfg dist df) ([], [])).1

/-!  The API grouping engine (grouping_engine.GroupingEngine).  Its feature
cells can be Python lists (normalized categorical or multi values), scalars
or NaN. -/

inductive EngCell
  | nan
  | scalar (s : String)
  | strs (l : List String)
deriving DecidableEq

/-- The set a cell contributes to the engine categorical match: list cells
keep their elements, present scalars are trimmed singletons, NaN is empty. -/
def engCellCatSet : EngCell → List String
  | EngCell.nan => []
  | EngCell.scalar s => [s.trim]
  | EngCell.strs l => l

/-- Embeds GroupingEngine._check_categorical_match. -/
def engine_check_categorical_match (a b : EngCell) : Bool :=
  let s1 := engCellCatSet a
  let s2 := engCellCatSet b
  if !s1.isEmpty && !s2.isEmpty then overlap s1 s2 else false

/-- The set a cell contributes to the engine multi-overlap check: only list
cells count, everything else is empty. -/
def engCellMultiSet : EngCell → List String
  | EngCell.strs l => l
  | _ => []

/-- Embeds GroupingEngine._check_multi_overlap. -/
def engine_check_multi_overlap (a b : EngCell) : Bool :=
  overlap (engCellMultiSet a) (engCellMultiSet b)

structure EngAgeRules where
  bands : List AgeBand
  allowCrossBand : Bool
  boundarySlackYears : ℚ
deriving DecidableEq

def engBandIdxs (R : EngAgeRules) (a : ℚ) : List ℕ :=
  (List.range R.bands.length).filter
    (fun i => decide ((R.bands.getD i defBand).lo ≤ a ∧ a ≤ (R.bands.getD i defBand).hi))

/-- Embeds GroupingEngine._check_age_compatibility: true when some shared
band has no max_spread or a satisfied one, otherwise cross-band with the
boundary slack. -/
def engine_check_age_compatibility (R : EngAgeRules) (x y : ℚ) : Bool :=
  let b1 := engBandIdxs R x
  let b2 := engBandIdxs R y
  let common := b1.filter (fun i => decide (i ∈ b2))
  (common.any (fun i =>
    match (R.bands.getD i defBand).maxSpread with
    | none => true
    | some s => decide (|x - y| ≤ s))) ||
  (if R.allowCrossBand then decide (|x - y| ≤ R.boundarySlackYears) else false)

structure EngRow where
  cats : List EngCell
  multis : List EngCell
  nums : List (Option ℚ)
  age : Option ℚ
deriving DecidableEq

def defEngRow : EngRow := ⟨[], [], [], none⟩

/-- Engine policy slice used by _build_compatibility_matrix: the counts of
the hard categorical and multi fields, the numeric tolerances, and the age
rules. -/
structure EngCfg where
  nCat : ℕ
  nMulti : ℕ
  tols : List ℚ
  ageRules : Option EngAgeRules
deriving DecidableEq

/-- The pair body of GroupingEngine._build_compatibility_matrix.  Note the
numeric branch: the check only fires when both values are present, so a pair
with a missing numeric value stays compatible on that field. -/
def engPairCompat (cfg : EngCfg) (ri rj : EngRow) : Bool :=
  (List.range cfg.nCat).all (fun k =>
    engine_check_categorical_match (ri.cats.getD k EngCell.nan) (rj.cats.getD k EngCell.nan)) &&
  (List.range cfg.nMulti).all (fun k =>
    engine_check_multi_overlap (ri.multis.getD k EngCell.nan) (rj.multis.getD k EngCell.nan)) &&
  (List.range cfg.tols.length).all (fun k =>
    match ri.nums.getD k none, rj.nums.getD k none with
    | some x, some y => !decide (cfg.tols.getD k 0 < |x - y|)
    | _, _ => true) &&
  (match cfg.ageRules with
   | none => true
   | some R =>
     match ri.age, rj.age with
     | some x, some y => engine_check_age_compatibility R x y
     | _, _ => true)

/-- Embeds GroupingEngine._build_compatibility_matrix: the pair body is
evaluated for i below j and mirrored, the diagonal is filled true. -/
def engine_build_compatibility_matrix (cfg : EngCfg) (rows : List EngRow) (i j : ℕ) : Bool :=
  if i = j then true
  else if i < j then engPairCompat cfg (rows.getD i defEngRow) (rows.getD j defEngRow)
  else engPairCompat cfg (rows.getD j defEngRow) (rows.getD i defEngRow)

/-- The while loop of GroupingEngine._process_subspace.  The matrix is built
over the current available list at each iteration (the source builds it
before the loop and rebuilds it right after each emission, which is the
same).  The builder it calls is the worker build_one_group_optimized, with
local indices 0..n-1; its score function and whole-group check come from the
worker module and are passed in.  Fuel only bounds the iteration count. -/
def engineLoop (cfg : EngCfg) (minGS groupSize : ℕ) (scoreFn : List ℕ → ℚ)
    (groupOk : List ℕ → Bool) (rows : List EngRow) :
    ℕ → List ℕ → List ℕ → List (List ℕ) → List (List ℕ) × List ℕ
  | 0, _, ungrouped, groups => (groups, ungrouped)
  | fuel + 1, available, ungrouped, groups =>
    if minGS ≤ available.length then
      let compat := engine_build_compatibility_matrix cfg
        (available.map (fun i => rows.getD i defEngRow))
      let locals := List.range available.length
      let g := build_one_group scoreFn groupOk compat available locals groupSize
      if g.isEmpty then (groups, ungrouped)
      else
        let ungrouped2 := ungrouped.filter (fun u => decide (u ∉ g))
        engineLoop cfg minGS groupSize scoreFn groupOk rows fuel
          (available.filter (fun i => decide (i ∈ ungrouped2))) ungrouped2
          (groups ++ [g])
    else (groups, ungrouped)

/-- Embeds GroupingEngine._process_subspace: returns the emitted groups of
the subspace together with the remaining ungrouped set. -/
def engineProcessSubspace (cfg : EngCfg) (minGS groupSize : ℕ)
    (scoreFn : List ℕ → ℚ) (groupOk : List ℕ → Bool) (rows : List EngRow)
    (indices ungrouped : List ℕ) : List (List ℕ) × List ℕ :=
  let available := indices.filter (fun i => decide (i ∈ ungrouped))
  if available.length < minGS then ([], ungrouped)
  else engineLoop cfg minGS groupSize scoreFn groupOk rows available.length
    available ungrouped []

/-!  Reference predicates written from the words of the specification, used
to compare the code against spec claims about age compatibility. -/

/-- True when age a lies inside band i of the rules. -/
def memBand (R : AgeRules) (i : ℕ) (a : ℚ) : Bool :=
  decide (i < R.bands.length) &&
  decide ((R.bands.getD i defBand).lo ≤ a ∧ a ≤ (R.bands.getD i defBand).hi)

/-- The age-compatibility relation exactly as claim C5 states it: either the
two ages share a band and the difference is within every max_spread declared
on a shared band (no bound when none is declared), or there is no shared
band, cross-band matching is allowed, and the difference is within the
largest max_spread declared on a band containing either age. -/
def ageCompatClaimC5 (R : AgeRules) (x y : ℚ) : Bool :=
  if (List.range R.bands.length).any (fun i => memBand R i x && memBand R i y) then
    (List.range R.bands.length).all (fun i =>
      !(memBand R i x && memBand R i y) ||
      (spreadOf R i).all (fun s => decide (|x - y| ≤ s)))
  else
    R.allowCrossBand &&
    (List.range R.bands.length).any (fun i =>
      (memBand R i x || memBand R i y) &&
      (spreadOf R i).any (fun s => decide (|x - y| ≤ s)))

/-- The amended C5 relation: as the claim states it, except that the
cross-band branch additionally requires each of the two ages to lie in at
least one band (an age outside every band is incompatible with everyone),
and the maximal max_spread is taken as 0 when no relevant band declares
one. -/
def ageCompatAmendedC5 (R : AgeRules) (x y : ℚ) : Bool :=
  if (List.range R.bands.length).any (fun i => memBand R i x && memBand R i y) then
    (List.range R.bands.length).all (fun i =>
      !(memBand R i x && memBand R i y) ||
      (spreadOf R i).all (fun s => decide (|x - y| ≤ s)))
  else
    (List.range R.bands.length).any (fun i => memBand R i x) &&
    (List.range R.bands.length).any (fun i => memBand R i y) &&
    R.allowCrossBand &&
    (decide (|x - y| ≤ 0) ||
     (List.range R.bands.length).any (fun i =>
       (memBand R i x || memBand R i y) &&
       (spreadOf R i).any (fun s => decide (|x - y| ≤ s))))

/-- Propositional characterization of band-rule age compatibility, shared by
the symmetry and semantics proofs. -/
def AgeCompatChar (R : AgeRules) (x y : ℚ) : Prop :=
  (∃ i, i ∈ bandIdxs R x) ∧ (∃ j, j ∈ bandIdxs R y) ∧
  (((∃ i, i ∈ bandIdxs R x ∧ i ∈ bandIdxs R y) ∧
     ∀ i s, i ∈ bandIdxs R x → i ∈ bandIdxs R y → spreadOf R i = some s → |x - y| ≤ s) ∨
   ((¬ ∃ i, i ∈ bandIdxs R x ∧ i ∈ bandIdxs R y) ∧ R.allowCrossBand = true ∧
     (|x - y| ≤ 0 ∨
      ∃ i s, (i ∈ bandIdxs R x ∨ i ∈ bandIdxs R y) ∧ spreadOf R i = some s ∧ |x - y| ≤ s)))

/-!  Concrete instances used by witnesses and counterexamples. -/

/-- Stand-in distance function for concrete runs whose configuration has no
soft numeric feature, so that no distance is ever evaluated. -/
def dist0 : List ℚ → ℚ := fun _ => 0

/-- Worker configuration with a single hard numeric tolerance of 2 and no
other constraint or soft field. -/
def cfgTol2 : AlgoCfg := ⟨[], [], [2], none, 6, defaultConfigWeights, 0, [], []⟩

def rowNum (v : Option ℚ) : Row := ⟨[], [], [v], none, [], [], []⟩

/-- Five records whose hard numeric values are 2, 2, 2, 0, 3: every pair is
within tolerance 2 except the pair of the last two. -/
def dfTol2 : List Row :=
  [rowNum (some 2), rowNum (some 2), rowNum (some 2), rowNum (some 0), rowNum (some 3)]

def engRowNum (v : Option ℚ) : EngRow := ⟨[], [], [v], none⟩

def engCfgTol2 : EngCfg := ⟨0, 0, [2], none⟩

def engRowsTol2 : List EngRow :=
  [engRowNum (some 2), engRowNum (some 2), engRowNum (some 2),
   engRowNum (some 0), engRowNum (some 3)]

def engCfgTol1 : EngCfg := ⟨0, 0, [1], none⟩

/-- Two engine records on one numeric-tolerance field of tolerance 1, the
first with a missing value and the second with value 100. -/
def engRowsMissing : List EngRow := [engRowNum none, engRowNum (some 100)]

/-- A single band 20..30 with max_spread 40, cross-band allowed, no legacy or
group constraint. -/
def rulesOneBand : AgeRules := ⟨[⟨20, 30, some 40⟩], true, none, none, none⟩

/-- Scoring configuration with one soft categorical field in diversity mode
and nothing else. -/
def cfgOneCat : AlgoCfg := ⟨[], [], [], none, 6, defaultConfigWeights, 0, [CatMode.diversity], []⟩

def rowCat (s : String) : Row := ⟨[], [], [], none, [], [s], []⟩

/-- Normalization context in which w is a flexible answer observed alongside
the concrete options x and y. -/
def ctxWild : NormCtx := ⟨[("x"), ("y"), ("w")], [("w")]⟩

/-!  Helper lemmas. -/

theorem bool_eq_of_iff (a b : Bool) (h : a = true ↔ b = true) : a = b := by
  cases a <;> cases b <;> simp_all

theorem all_ext (l : List ℕ) (p q : ℕ → Bool) (h : ∀ k, p k = q k) :
    l.all p = l.all q := by
  induction l with
  | nil => rfl
  | cons a t ih => simp [List.all_cons, h a, ih]

theorem overlap_comm (a b : List String) : overlap a b = overlap b a := by
  apply bool_eq_of_iff
  simp only [overlap, List.any_eq_true, decide_eq_true_eq]
  constructor
  · rintro ⟨x, hx1, hx2⟩; exact ⟨x, hx2, hx1⟩
  · rintro ⟨x, hx1, hx2⟩; exact ⟨x, hx2, hx1⟩

theorem overlap_nil_left (b : List String) : overlap [] b = false := rfl

theorem overlap_nil_right (a : List String) : overlap a [] = false := by
  simp [overlap]

theorem mem_bandIdxs (R : AgeRules) (a : ℚ) (i : ℕ) :
    i ∈ bandIdxs R a ↔
      i < R.bands.length ∧
      (R.bands.getD i defBand).lo ≤ a ∧ a ≤ (R.bands.getD i defBand).hi := by
  simp [bandIdxs, List.mem_filter]

theorem mem_bandIdxs_memBand (R : AgeRules) (a : ℚ) (i : ℕ) :
    i ∈ bandIdxs R a ↔ memBand R i a = true := by
  simp [mem_bandIdxs, memBand]

theorem minSpreadFold_go (x : ℚ) (xs : List ℚ) :
    minSpreadFold (x :: xs) = some (xs.foldl min x) := by
  show xs.foldl _ (some x) = some (xs.foldl min x)
  induction xs generalizing x with
  | nil => rfl
  | cons y ys ih => simpa using ih (min x y)

theorem le_foldl_min (t x : ℚ) (xs : List ℚ) :
    t ≤ xs.foldl min x ↔ t ≤ x ∧ ∀ s ∈ xs, t ≤ s := by
  induction xs generalizing x with
  | nil => simp
  | cons y ys ih =>
    simp only [List.foldl_cons, ih, le_min_iff, List.mem_cons]
    constructor
    · rintro ⟨⟨h1, h2⟩, h3⟩
      exact ⟨h1, fun s hs => hs.elim (fun e => e ▸ h2) (h3 s)⟩
    · rintro ⟨h1, h2⟩
      exact ⟨⟨h1, h2 y (Or.inl rfl)⟩, fun s hs => h2 s (Or.inr hs)⟩

theorem le_foldl_max (t x : ℚ) (xs : List ℚ) :
    t ≤ xs.foldl max x ↔ t ≤ x ∨ ∃ s ∈ xs, t ≤ s := by
  induction xs generalizing x with
  | nil => simp
  | cons y ys ih =>
    simp only [List.foldl_cons, ih, le_max_iff, List.mem_cons]
    constructor
    · rintro (h | ⟨s, hs1, hs2⟩)
      · exact h.elim Or.inl (fun h2 => Or.inr ⟨y, Or.inl rfl, h2⟩)
      · exact Or.inr ⟨s, Or.inr hs1, hs2⟩
    · rintro (h | ⟨s, hs1, hs2⟩)
      · exact Or.inl (Or.inl h)
      · exact hs1.elim (fun e => Or.inl (Or.inr (e ▸ hs2))) (fun h3 => Or.inr ⟨s, h3, hs2⟩)

theorem minSpread_branch_iff (t : ℚ) (l : List ℚ) :
    (match minSpreadFold l with
     | none => true
     | some m => decide (t ≤ m)) = true ↔ ∀ s ∈ l, t ≤ s := by
  cases l with
  | nil => simp [minSpreadFold]
  | cons x xs =>
    rw [minSpreadFold_go]
    simp only [decide_eq_true_eq, le_foldl_min, List.mem_cons]
    constructor
    · rintro ⟨h1, h2⟩
      exact fun s hs => hs.elim (fun e => e ▸ h1) (h2 s)
    · intro h
      exact ⟨h x (Or.inl rfl), fun s hs => h s (Or.inr hs)⟩

theorem le_maxSpreadFold_iff (t : ℚ) (l : List ℚ) :
    t ≤ maxSpreadFold l ↔ t ≤ 0 ∨ ∃ s ∈ l, t ≤ s :=
  le_foldl_max t 0 l

theorem isEmpty_true_iff (l : List ℕ) : l.isEmpty = true ↔ ¬ ∃ i, i ∈ l := by
  cases l <;> simp

theorem mem_sharedBands (R : AgeRules) (x y : ℚ) (i : ℕ) :
    i ∈ sharedBands R x y ↔ i ∈ bandIdxs R x ∧ i ∈ bandIdxs R y := by
  simp [sharedBands, List.mem_filter]

theorem check_age_true_iff (R : AgeRules) (x y : ℚ) (hleg : R.maxAgeDifference = none) :
    check_age_compatibility R x y = true ↔ AgeCompatChar R x y := by
  simp only [check_age_compatibility, hleg]
  by_cases h1 : ((bandIdxs R x).isEmpty || (bandIdxs R y).isEmpty) = true
  · simp only [h1, if_true]
    constructor
    · intro h; exact absurd h (by decide)
    · rintro ⟨⟨i, hi⟩, ⟨j, hj⟩, _⟩
      exfalso
      rcases Bool.or_eq_true_iff.mp h1 with h | h
      · exact (isEmpty_true_iff _ |>.mp h) ⟨i, hi⟩
      · exact (isEmpty_true_iff _ |>.mp h) ⟨j, hj⟩
  · rw [Bool.not_eq_true, Bool.or_eq_false_iff] at h1
    obtain ⟨hx1, hy1⟩ := h1
    have hxe : ∃ i, i ∈ bandIdxs R x := by
      by_contra hc
      rw [← isEmpty_true_iff] at hc
      simp [hc] at hx1
    have hye : ∃ j, j ∈ bandIdxs R y := by
      by_contra hc
      rw [← isEmpty_true_iff] at hc
      simp [hc] at hy1
    simp only [hx1, hy1, Bool.or_self, Bool.false_eq_true, if_false]
    by_cases h2 : (sharedBands R x y).isEmpty = true
    · have hns : ¬ ∃ i, i ∈ bandIdxs R x ∧ i ∈ bandIdxs R y := by
        intro ⟨i, hi⟩
        exact (isEmpty_true_iff _ |>.mp h2) ⟨i, (mem_sharedBands R x y i).mpr hi⟩
      simp only [h2, Bool.not_true, Bool.false_eq_true, if_false]
      by_cases h3 : R.allowCrossBand = true
      · simp only [h3, Bool.not_true, Bool.false_eq_true, if_false, decide_eq_true_eq,
          le_maxSpreadFold_iff]
        unfold AgeCompatChar
        constructor
        · rintro (h | ⟨s, hs1, hs2⟩)
          · exact ⟨hxe, hye, Or.inr ⟨hns, h3, Or.inl h⟩⟩
          · obtain ⟨i, hi, hspread⟩ := List.mem_filterMap.mp hs1
            exact ⟨hxe, hye, Or.inr ⟨hns, h3, Or.inr ⟨i, s, List.mem_append.mp hi, hspread, hs2⟩⟩⟩
        · rintro ⟨_, _, (⟨hsh, _⟩ | ⟨_, _, (h | ⟨i, s, hi, hspread, hle⟩)⟩)⟩
          · exact absurd hsh hns
          · exact Or.inl h
          · exact Or.inr ⟨s, List.mem_filterMap.mpr ⟨i, List.mem_append.mpr hi, hspread⟩, hle⟩
      · rw [Bool.not_eq_true] at h3
        simp only [h3, Bool.not_false, if_true]
        unfold AgeCompatChar
        constructor
        · intro h; exact absurd h (by decide)
        · rintro ⟨_, _, (⟨hsh, _⟩ | ⟨_, hcb, _⟩)⟩
          · exact absurd hsh hns
          · rw [h3] at hcb; exact absurd hcb (by decide)
    · have hsh : ∃ i, i ∈ bandIdxs R x ∧ i ∈ bandIdxs R y := by
        have h4 : ¬ ¬ ∃ i, i ∈ sharedBands R x y := by
          rw [← isEmpty_true_iff]; exact h2
        obtain ⟨i, hi⟩ := not_not.mp h4
        exact ⟨i, (mem_sharedBands R x y i).mp hi⟩
      rw [Bool.not_eq_true] at h2
      simp only [h2, Bool.not_false, if_true]
      rw [minSpread_branch_iff]
      unfold AgeCompatChar
      constructor
      · intro h
        refine ⟨hxe, hye, Or.inl ⟨hsh, fun i s hix hiy hspread => ?_⟩⟩
        exact h s (List.mem_filterMap.mpr ⟨i, (mem_sharedBands R x y i).mpr ⟨hix, hiy⟩, hspread⟩)
      · rintro ⟨_, _, (⟨_, hall⟩ | ⟨hnsh, _, _⟩)⟩
        · intro s hs
          obtain ⟨i, hi, hspread⟩ := List.mem_filterMap.mp hs
          obtain ⟨hix, hiy⟩ := (mem_sharedBands R x y i).mp hi
          exact hall i s hix hiy hspread
        · exact absurd hsh hnsh

theorem ageCompatChar_comm (R : AgeRules) (x y : ℚ) :
    AgeCompatChar R x y ↔ AgeCompatChar R y x := by
  unfold AgeCompatChar
  rw [abs_sub_comm x y]
  constructor
  · rintro ⟨hx, hy, (⟨⟨i, hi1, hi2⟩, hall⟩ | ⟨hns, hcb, hsp⟩)⟩
    · exact ⟨hy, hx, Or.inl ⟨⟨i, hi2, hi1⟩, fun i s h1 h2 h3 => hall i s h2 h1 h3⟩⟩
    · refine ⟨hy, hx, Or.inr ⟨fun ⟨i, h1, h2⟩ => hns ⟨i, h2, h1⟩, hcb, ?_⟩⟩
      rcases hsp with h | ⟨i, s, hmem, h1, h2⟩
      · exact Or.inl h
      · exact Or.inr ⟨i, s, hmem.symm, h1, h2⟩
  · rintro ⟨hy, hx, (⟨⟨i, hi1, hi2⟩, hall⟩ | ⟨hns, hcb, hsp⟩)⟩
    · exact ⟨hx, hy, Or.inl ⟨⟨i, hi2, hi1⟩, fun i s h1 h2 h3 => hall i s h2 h1 h3⟩⟩
    · refine ⟨hx, hy, Or.inr ⟨fun ⟨i, h1, h2⟩ => hns ⟨i, h2, h1⟩, hcb, ?_⟩⟩
      rcases hsp with h | ⟨i, s, hmem, h1, h2⟩
      · exact Or.inl h
      · exact Or.inr ⟨i, s, hmem.symm, h1, h2⟩

theorem check_age_comm (R : AgeRules) (x y : ℚ) :
    check_age_compatibility R x y = check_age_compatibility R y x := by
  cases hleg : R.maxAgeDifference with
  | some d => simp only [check_age_compatibility, hleg, abs_sub_comm x y]
  | none =>
    apply bool_eq_of_iff
    rw [check_age_true_iff R x y hleg, check_age_true_iff R y x hleg]
    exact ageCompatChar_comm R x y

theorem numLayer_comm (tol : ℚ) (a b : Option ℚ) :
    numLayer tol a b = numLayer tol b a := by
  cases a <;> cases b <;> simp [numLayer, abs_sub_comm]

theorem ageLayerOpt_comm (R? : Option AgeRules) (a b : Option ℚ) :
    ageLayerOpt R? a b = ageLayerOpt R? b a := by
  cases R? with
  | none => rfl
  | some R => cases a <;> cases b <;> simp [ageLayerOpt, check_age_comm]

theorem categorical_pass_comm (c : NormCtx) (a b : String) :
    categorical_pass c a b = categorical_pass c b a :=
  overlap_comm _ _

theorem pairCompat_comm (cfg : AlgoCfg) (ri rj : Row) :
    pairCompat cfg ri rj = pairCompat cfg rj ri := by
  unfold pairCompat
  rw [all_ext _ _ _ (fun k => categorical_pass_comm (cfg.catRules.getD k ⟨[], []⟩)
      (ri.cats.getD k ("")) (rj.cats.getD k (""))),
    all_ext _ _ _ (fun k => overlap_comm
      (to_set (cfg.multiRules.getD k ⟨[], []⟩) (ri.multis.getD k none))
      (to_set (cfg.multiRules.getD k ⟨[], []⟩) (rj.multis.getD k none))),
    ageLayerOpt_comm,
    all_ext _ _ _ (fun k => numLayer_comm (cfg.tols.getD k 0)
      (ri.nums.getD k none) (rj.nums.getD k none))]


theorem any_memBand (R : AgeRules) (a : ℚ) :
    ((List.range R.bands.length).any (fun i => memBand R i a) = true) ↔
      ∃ i, i ∈ bandIdxs R a := by
  rw [List.any_eq_true]
  constructor
  · rintro ⟨i, _, h⟩; exact ⟨i, (mem_bandIdxs_memBand R a i).mpr h⟩
  · rintro ⟨i, hi⟩
    exact ⟨i, List.mem_range.mpr ((mem_bandIdxs R a i).mp hi).1,
      (mem_bandIdxs_memBand R a i).mp hi⟩

theorem any_sharedBand (R : AgeRules) (x y : ℚ) :
    ((List.range R.bands.length).any (fun i => memBand R i x && memBand R i y) = true) ↔
      ∃ i, i ∈ bandIdxs R x ∧ i ∈ bandIdxs R y := by
  rw [List.any_eq_true]
  constructor
  · rintro ⟨i, _, h⟩
    rw [Bool.and_eq_true] at h
    exact ⟨i, (mem_bandIdxs_memBand R x i).mpr h.1, (mem_bandIdxs_memBand R y i).mpr h.2⟩
  · rintro ⟨i, h1, h2⟩
    refine ⟨i, List.mem_range.mpr ((mem_bandIdxs R x i).mp h1).1, ?_⟩
    rw [Bool.and_eq_true]
    exact ⟨(mem_bandIdxs_memBand R x i).mp h1, (mem_bandIdxs_memBand R y i).mp h2⟩

theorem all_sharedSpread (R : AgeRules) (x y : ℚ) :
    ((List.range R.bands.length).all (fun i =>
        !(memBand R i x && memBand R i y) ||
        (spreadOf R i).all (fun s => decide (|x - y| ≤ s))) = true) ↔
      ∀ i s, i ∈ bandIdxs R x → i ∈ bandIdxs R y → spreadOf R i = some s → |x - y| ≤ s := by
  rw [List.all_eq_true]
  constructor
  · intro h i s h1 h2 h3
    have hi := h i (List.mem_range.mpr ((mem_bandIdxs R x i).mp h1).1)
    rw [mem_bandIdxs_memBand] at h1 h2
    rw [h1, h2, h3] at hi
    simpa using hi
  · intro h i _
    by_cases hbx : memBand R i x = true
    · by_cases hby : memBand R i y = true
      · rw [hbx, hby]
        cases hsp : spreadOf R i with
        | none => rfl
        | some s =>
          have hle := h i s ((mem_bandIdxs_memBand R x i).mpr hbx)
            ((mem_bandIdxs_memBand R y i).mpr hby) hsp
          simpa using hle
      · rw [Bool.not_eq_true] at hby
        rw [hby]
        simp
    · rw [Bool.not_eq_true] at hbx
      rw [hbx]
      simp

theorem any_eitherSpread (R : AgeRules) (x y : ℚ) :
    ((List.range R.bands.length).any (fun i =>
        (memBand R i x || memBand R i y) &&
        (spreadOf R i).any (fun s => decide (|x - y| ≤ s))) = true) ↔
      ∃ i s, (i ∈ bandIdxs R x ∨ i ∈ bandIdxs R y) ∧ spreadOf R i = some s ∧ |x - y| ≤ s := by
  rw [List.any_eq_true]
  constructor
  · rintro ⟨i, _, h⟩
    rw [Bool.and_eq_true] at h
    obtain ⟨h1, h2⟩ := h
    cases hsp : spreadOf R i with
    | none => rw [hsp] at h2; exact absurd h2 (by simp)
    | some s =>
      rw [hsp] at h2
      refine ⟨i, s, ?_, hsp, by simpa using h2⟩
      rw [Bool.or_eq_true] at h1
      rcases h1 with h1 | h1
      · exact Or.inl ((mem_bandIdxs_memBand R x i).mpr h1)
      · exact Or.inr ((mem_bandIdxs_memBand R y i).mpr h1)
  · rintro ⟨i, s, hmem, hsp, hle⟩
    have hlen : i < R.bands.length := by
      rcases hmem with h | h
      · exact ((mem_bandIdxs R x i).mp h).1
      · exact ((mem_bandIdxs R y i).mp h).1
    refine ⟨i, List.mem_range.mpr hlen, ?_⟩
    rw [Bool.and_eq_true, hsp]
    constructor
    · rw [Bool.or_eq_true]
      rcases hmem with h | h
      · exact Or.inl ((mem_bandIdxs_memBand R x i).mp h)
      · exact Or.inr ((mem_bandIdxs_memBand R y i).mp h)
    · simpa using hle

theorem ageCompatAmendedC5_true_iff (R : AgeRules) (x y : ℚ) :
    ageCompatAmendedC5 R x y = true ↔ AgeCompatChar R x y := by
  unfold ageCompatAmendedC5 AgeCompatChar
  by_cases hsh : ∃ i, i ∈ bandIdxs R x ∧ i ∈ bandIdxs R y
  · rw [if_pos ((any_sharedBand R x y).mpr hsh), all_sharedSpread]
    constructor
    · intro h
      obtain ⟨i0, h1, h2⟩ := hsh
      exact ⟨⟨i0, h1⟩, ⟨i0, h2⟩, Or.inl ⟨⟨i0, h1, h2⟩, h⟩⟩
    · rintro ⟨_, _, (⟨_, hall⟩ | ⟨hns, _, _⟩)⟩
      · exact hall
      · exact absurd hsh hns
  · rw [if_neg (fun hc => hsh ((any_sharedBand R x y).mp hc))]
    constructor
    · intro h
      rw [Bool.and_eq_true] at h
      obtain ⟨h1, hrest⟩ := h
      rw [Bool.and_eq_true] at h1
      obtain ⟨h2, hcb⟩ := h1
      rw [Bool.and_eq_true] at h2
      obtain ⟨hx, hy⟩ := h2
      rw [Bool.or_eq_true] at hrest
      refine ⟨(any_memBand R x).mp hx, (any_memBand R y).mp hy, Or.inr ⟨hsh, hcb, ?_⟩⟩
      rcases hrest with h | h
      · exact Or.inl (by simpa using h)
      · exact Or.inr ((any_eitherSpread R x y).mp h)
    · rintro ⟨hx, hy, (⟨hsh2, _⟩ | ⟨_, hcb, hlast⟩)⟩
      · exact absurd hsh2 hsh
      · rw [Bool.and_eq_true]
        refine ⟨?_, ?_⟩
        · rw [Bool.and_eq_true]
          refine ⟨?_, hcb⟩
          rw [Bool.and_eq_true]
          exact ⟨(any_memBand R x).mpr hx, (any_memBand R y).mpr hy⟩
        · rw [Bool.or_eq_true]
          rcases hlast with h | h
          · exact Or.inl (by simpa using h)
          · exact Or.inr ((any_eitherSpread R x y).mpr h)

theorem check_age_eq_amended (R : AgeRules) (x y : ℚ) (hleg : R.maxAgeDifference = none) :
    check_age_compatibility R x y = ageCompatAmendedC5 R x y :=
  bool_eq_of_iff _ _ (by rw [check_age_true_iff R x y hleg, ageCompatAmendedC5_true_iff])

/-!  Fold invariants of the seed and extension scans. -/

theorem pick_go_spec (scoreFn : List ℕ → ℚ) (groupG : List ℕ) :
    ∀ (F : List (ℕ × ℕ)) (b0 : Option (ℕ × ℕ)) (v : ℚ),
      (F.foldl (fun st x =>
          if st.2 < scoreFn (groupG ++ [x.1]) then (some x, scoreFn (groupG ++ [x.1])) else st)
        (b0, v) = (b0, v) ∧ ∀ y ∈ F, scoreFn (groupG ++ [y.1]) ≤ v) ∨
      (∃ x F1 F2, F = F1 ++ x :: F2 ∧
        F.foldl (fun st x =>
          if st.2 < scoreFn (groupG ++ [x.1]) then (some x, scoreFn (groupG ++ [x.1])) else st)
          (b0, v) = (some x, scoreFn (groupG ++ [x.1])) ∧
        v < scoreFn (groupG ++ [x.1]) ∧
        (∀ y ∈ F1, scoreFn (groupG ++ [y.1]) < scoreFn (groupG ++ [x.1])) ∧
        (∀ y ∈ F2, scoreFn (groupG ++ [y.1]) ≤ scoreFn (groupG ++ [x.1]))) := by
  intro F
  induction F with
  | nil => intro b0 v; exact Or.inl ⟨rfl, by simp⟩
  | cons z F ih =>
    intro b0 v
    simp only [List.foldl_cons]
    by_cases hz : v < scoreFn (groupG ++ [z.1])
    · rw [if_pos hz]
      rcases ih (some z) (scoreFn (groupG ++ [z.1])) with ⟨hr, hall⟩ | ⟨x, F1, F2, hdec, hr, hlt, h1, h2⟩
      · exact Or.inr ⟨z, [], F, by simp, hr, hz, by simp, hall⟩
      · refine Or.inr ⟨x, z :: F1, F2, by rw [hdec]; rfl, hr, lt_trans hz hlt, ?_, h2⟩
        intro y hy
        rcases List.mem_cons.mp hy with h | h
        · exact h ▸ hlt
        · exact h1 y h
    · rw [if_neg hz]
      push_neg at hz
      rcases ih b0 v with ⟨hr, hall⟩ | ⟨x, F1, F2, hdec, hr, hlt, h1, h2⟩
      · refine Or.inl ⟨hr, ?_⟩
        intro y hy
        rcases List.mem_cons.mp hy with h | h
        · exact h ▸ hz
        · exact hall y h
      · refine Or.inr ⟨x, z :: F1, F2, by rw [hdec]; rfl, hr, hlt, ?_, h2⟩
        intro y hy
        rcases List.mem_cons.mp hy with h | h
        · exact h ▸ lt_of_le_of_lt hz hlt
        · exact h1 y h

theorem pickBest_spec (scoreFn : List ℕ → ℚ) (groupG : List ℕ) (F : List (ℕ × ℕ))
    (x : ℕ × ℕ) (hx : pickBest scoreFn groupG F = some x) :
    ∃ F1 F2, F = F1 ++ x :: F2 ∧
      (∀ y ∈ F1, scoreFn (groupG ++ [y.1]) < scoreFn (groupG ++ [x.1])) ∧
      (∀ y ∈ F2, scoreFn (groupG ++ [y.1]) ≤ scoreFn (groupG ++ [x.1])) := by
  unfold pickBest at hx
  rcases pick_go_spec scoreFn groupG F none (-(10 ^ 9 : ℚ)) with ⟨hr, _⟩ |
    ⟨z, F1, F2, hdec, hr, _, h1, h2⟩
  · rw [hr] at hx
    exact absurd hx (by simp)
  · rw [hr] at hx
    simp only [Option.some.injEq] at hx
    exact ⟨F1, F2, hx ▸ hdec, hx ▸ h1, hx ▸ h2⟩

theorem pickBest_mem (scoreFn : List ℕ → ℚ) (groupG : List ℕ) (F : List (ℕ × ℕ))
    (x : ℕ × ℕ) (hx : pickBest scoreFn groupG F = some x) : x ∈ F := by
  obtain ⟨F1, F2, hdec, _, _⟩ := pickBest_spec scoreFn groupG F x hx
  rw [hdec]
  exact List.mem_append.mpr (Or.inr (List.mem_cons_self x F2))

theorem seed_go_spec (compat : ℕ → ℕ → Bool) (L : List ℕ) :
    ∀ (F : List (ℕ × ℕ)) (b : ℕ × ℕ),
      (F.foldl (fun best p =>
          match best with
          | none => some p
          | some b2 =>
            if degreeOf compat L p.2 < degreeOf compat L b2.2 then some p else b2)
        (some b) = some b ∧ ∀ p ∈ F, degreeOf compat L b.2 ≤ degreeOf compat L p.2) ∨
      (∃ r F1 F2, F = F1 ++ r :: F2 ∧
        F.foldl (fun best p =>
          match best with
          | none => some p
          | some b2 =>
            if degreeOf compat L p.2 < degreeOf compat L b2.2 then some p else b2)
          (some b) = some r ∧
        degreeOf compat L r.2 < degreeOf compat L b.2 ∧
        (∀ p ∈ F1, degreeOf compat L r.2 < degreeOf compat L p.2) ∧
        (∀ p ∈ F2, degreeOf compat L r.2 ≤ degreeOf compat L p.2)) := by
  intro F
  induction F with
  | nil => intro b; exact Or.inl ⟨rfl, by simp⟩
  | cons z F ih =>
    intro b
    simp only [List.foldl_cons]
    by_cases hz : degreeOf compat L z.2 < degreeOf compat L b.2
    · rw [if_pos hz]
      rcases ih z with ⟨hr, hall⟩ | ⟨r, F1, F2, hdec, hr, hlt, h1, h2⟩
      · refine Or.inr ⟨z, [], F, by simp, hr, hz, by simp, hall⟩
      · refine Or.inr ⟨r, z :: F1, F2, by rw [hdec]; rfl, hr, lt_trans hlt hz, ?_, h2⟩
        intro p hp
        rcases List.mem_cons.mp hp with h | h
        · exact h ▸ hlt
        · exact h1 p h
    · rw [if_neg hz]
      push_neg at hz
      rcases ih b with ⟨hr, hall⟩ | ⟨r, F1, F2, hdec, hr, hlt, h1, h2⟩
      · refine Or.inl ⟨hr, ?_⟩
        intro p hp
        rcases List.mem_cons.mp hp with h | h
        · exact h ▸ hz
        · exact hall p h
      · refine Or.inr ⟨r, z :: F1, F2, by rw [hdec]; rfl, hr, hlt, ?_, h2⟩
        intro p hp
        rcases List.mem_cons.mp hp with h | h
        · exact h ▸ lt_of_lt_of_le hlt hz
        · exact h1 p h

theorem seedOf_spec (compat : ℕ → ℕ → Bool) (ps : List (ℕ × ℕ)) (s : ℕ × ℕ)
    (hs : seedOf compat ps = some s) :
    ∃ F1 F2, ps = F1 ++ s :: F2 ∧
      (∀ p ∈ F1,
        degreeOf compat (ps.map Prod.snd) s.2 < degreeOf compat (ps.map Prod.snd) p.2) ∧
      (∀ p ∈ F2,
        degreeOf compat (ps.map Prod.snd) s.2 ≤ degreeOf compat (ps.map Prod.snd) p.2) := by
  cases ps with
  | nil => exact absurd hs (by simp [seedOf])
  | cons z F =>
    unfold seedOf at hs
    have hs2 : F.foldl (fun best p =>
        match best with
        | none => some p
        | some b2 =>
          if degreeOf compat ((z :: F).map Prod.snd) p.2 <
              degreeOf compat ((z :: F).map Prod.snd) b2.2
          then some p else b2) (some z) = some s := hs
    rcases seed_go_spec compat ((z :: F).map Prod.snd) F z with ⟨hr, hall⟩ |
      ⟨r, F1, F2, hdec, hr, hlt, h1, h2⟩
    · rw [hr] at hs2
      simp only [Option.some.injEq] at hs2
      refine ⟨[], F, by rw [hs2]; simp, by simp, ?_⟩
      intro p hp
      exact hs2 ▸ hall p hp
    · rw [hr] at hs2
      simp only [Option.some.injEq] at hs2
      refine ⟨z :: F1, F2, by rw [hdec, ← hs2]; simp, ?_, ?_⟩
      · intro p hp
        rcases List.mem_cons.mp hp with h | h
        · exact hs2 ▸ h ▸ hlt
        · exact hs2 ▸ h1 p h
      · intro p hp
        exact hs2 ▸ h2 p hp

theorem seedOf_mem (compat : ℕ → ℕ → Bool) (ps : List (ℕ × ℕ)) (s : ℕ × ℕ)
    (hs : seedOf compat ps = some s) : s ∈ ps := by
  obtain ⟨F1, F2, hdec, _, _⟩ := seedOf_spec compat ps s hs
  rw [hdec]
  exact List.mem_append.mpr (Or.inr (List.mem_cons_self s F2))

/-!  Builder and driver invariants. -/

theorem extendLoop_length (scoreFn : List ℕ → ℚ) (groupOk : List ℕ → Bool)
    (compat : ℕ → ℕ → Bool) (groupSize : ℕ) :
    ∀ fuel (group remaining : List (ℕ × ℕ)),
      (extendLoop scoreFn groupOk compat groupSize fuel group remaining).length ≤
        max groupSize group.length := by
  intro fuel
  induction fuel with
  | zero => intro group remaining; exact le_max_right _ _
  | succ n ih =>
    intro group remaining
    unfold extendLoop
    by_cases hc : group.length < groupSize ∧ remaining ≠ []
    · rw [if_pos hc]
      cases hp : pickBest scoreFn (group.map Prod.fst)
          (feasibleFilter compat groupOk group remaining) with
      | none => exact le_max_right _ _
      | some x =>
        show (extendLoop scoreFn groupOk compat groupSize n (group ++ [x])
          (remaining.filter (fun p => decide (p.1 ≠ x.1)))).length ≤ max groupSize group.length
        have h := ih (group ++ [x]) (remaining.filter (fun p => decide (p.1 ≠ x.1)))
        rw [List.length_append] at h
        have hlt := hc.1
        simp only [List.length_singleton] at h
        omega
    · rw [if_neg hc]
      exact le_max_right _ _

theorem extendLoop_invariant (scoreFn : List ℕ → ℚ) (groupOk : List ℕ → Bool)
    (compat : ℕ → ℕ → Bool) (groupSize : ℕ) :
    ∀ fuel (group remaining : List (ℕ × ℕ)),
      (group.map Prod.fst).Nodup →
      (∀ p ∈ remaining, p.1 ∉ group.map Prod.fst) →
      ((extendLoop scoreFn groupOk compat groupSize fuel group remaining).map Prod.fst).Nodup ∧
      (∀ q ∈ extendLoop scoreFn groupOk compat groupSize fuel group remaining,
        q ∈ group ∨ q ∈ remaining) := by
  intro fuel
  induction fuel with
  | zero =>
    intro group remaining h1 _
    exact ⟨h1, fun q hq => Or.inl hq⟩
  | succ n ih =>
    intro group remaining h1 h2
    unfold extendLoop
    by_cases hc : group.length < groupSize ∧ remaining ≠ []
    · rw [if_pos hc]
      cases hp : pickBest scoreFn (group.map Prod.fst)
          (feasibleFilter compat groupOk group remaining) with
      | none => exact ⟨h1, fun q hq => Or.inl hq⟩
      | some x =>
        have hxmem : x ∈ remaining := by
          have hmem := pickBest_mem _ _ _ _ hp
          exact List.mem_of_mem_filter hmem
        have hnodup : ((group ++ [x]).map Prod.fst).Nodup := by
          rw [List.map_append, List.map_singleton, List.nodup_append]
          refine ⟨h1, List.nodup_singleton _, ?_⟩
          intro a ha
          rw [List.mem_singleton]
          intro he
          exact (h2 x hxmem) (he ▸ ha)
        have hrem : ∀ p ∈ remaining.filter (fun p => decide (p.1 ≠ x.1)),
            p.1 ∉ (group ++ [x]).map Prod.fst := by
          intro p hpf
          rw [List.mem_filter] at hpf
          obtain ⟨hpr, hpx⟩ := hpf
          rw [List.map_append, List.map_singleton, List.mem_append]
          rintro (h | h)
          · exact h2 p hpr h
          · rw [List.mem_singleton] at h
            exact (decide_eq_true_eq.mp hpx) h
        obtain ⟨ha, hb⟩ := ih (group ++ [x]) (remaining.filter (fun p => decide (p.1 ≠ x.1)))
          hnodup hrem
        refine ⟨ha, fun q hq => ?_⟩
        rcases hb q hq with h | h
        · rcases List.mem_append.mp h with h | h
          · exact Or.inl h
          · rw [List.mem_singleton] at h
            exact Or.inr (h ▸ hxmem)
        · exact Or.inr (List.mem_of_mem_filter h)
    · rw [if_neg hc]
      exact ⟨h1, fun q hq => Or.inl hq⟩

theorem build_one_group_spec (scoreFn : List ℕ → ℚ) (groupOk : List ℕ → Bool)
    (compat : ℕ → ℕ → Bool) (candidates localIndices : List ℕ) (groupSize : ℕ)
    (g : List ℕ)
    (hg : build_one_group scoreFn groupOk compat candidates localIndices groupSize = g) :
    g = [] ∨
    (4 ≤ g.length ∧ g.length ≤ groupSize ∧ g.Nodup ∧ ∀ i ∈ g, i ∈ candidates) := by
  unfold build_one_group at hg
  by_cases h0 : (candidates.isEmpty || localIndices.isEmpty) = true
  · rw [if_pos h0] at hg
    exact Or.inl hg.symm
  · rw [if_neg h0] at hg
    cases hs : seedOf compat (candidates.zip localIndices) with
    | none => rw [hs] at hg; exact Or.inl hg.symm
    | some s =>
      rw [hs] at hg
      have hg2 : (if 4 ≤ (extendLoop scoreFn groupOk compat groupSize
            (candidates.zip localIndices).length [s]
            ((candidates.zip localIndices).filter (fun p => decide (p.1 ≠ s.1)))).length
          then (extendLoop scoreFn groupOk compat groupSize
            (candidates.zip localIndices).length [s]
            ((candidates.zip localIndices).filter (fun p => decide (p.1 ≠ s.1)))).map Prod.fst
          else []) = g := hg
      by_cases h4 : 4 ≤ (extendLoop scoreFn groupOk compat groupSize
          (candidates.zip localIndices).length [s]
          ((candidates.zip localIndices).filter (fun p => decide (p.1 ≠ s.1)))).length
      · rw [if_pos h4] at hg2
        subst hg2
        right
        have hlen := extendLoop_length scoreFn groupOk compat groupSize
          (candidates.zip localIndices).length [s]
          ((candidates.zip localIndices).filter (fun p => decide (p.1 ≠ s.1)))
        have hinv := extendLoop_invariant scoreFn groupOk compat groupSize
          (candidates.zip localIndices).length [s]
          ((candidates.zip localIndices).filter (fun p => decide (p.1 ≠ s.1)))
          (by simp)
          (by
            intro p hp
            rw [List.mem_filter] at hp
            simpa using decide_eq_true_eq.mp hp.2)
        refine ⟨?_, ?_, hinv.1, ?_⟩
        · rw [List.length_map]
          exact h4
        · rw [List.length_map]
          simp only [List.length_singleton] at hlen
          omega
        · intro i hi
          rw [List.mem_map] at hi
          obtain ⟨q, hq, hqi⟩ := hi
          rcases hinv.2 q hq with h | h
          · rw [List.mem_singleton] at h
            have hsm := seedOf_mem compat _ _ hs
            have hzc := List.of_mem_zip (h ▸ hsm)
            exact hqi ▸ hzc.1
          · have hqz := List.mem_of_mem_filter h
            have hzc := List.of_mem_zip hqz
            exact hqi ▸ hzc.1
      · rw [if_neg h4] at hg2
        exact Or.inl hg2.symm

theorem subspaceLoop_invariant (cfg : AlgoCfg) (dist : List ℚ → ℚ) (df : List Row)
    (compat : ℕ → ℕ → Bool) :
    ∀ fuel (pool : List ℕ) (groups : List (List ℕ)) (used : List ℕ),
      groups.Pairwise List.Disjoint →
      (∀ g ∈ groups, 4 ≤ g.length ∧ g.length ≤ cfg.groupSize ∧ g.Nodup) →
      (∀ g ∈ groups, ∀ i ∈ g, i ∈ used) →
      (subspaceLoop cfg dist df compat fuel pool groups used).1.Pairwise List.Disjoint ∧
      (∀ g ∈ (subspaceLoop cfg dist df compat fuel pool groups used).1,
        4 ≤ g.length ∧ g.length ≤ cfg.groupSize ∧ g.Nodup) ∧
      (∀ g ∈ (subspaceLoop cfg dist df compat fuel pool groups used).1,
        ∀ i ∈ g, i ∈ (subspaceLoop cfg dist df compat fuel pool groups used).2) := by
  intro fuel
  induction fuel with
  | zero =>
    intro pool groups used h1 h2 h3
    exact ⟨h1, h2, h3⟩
  | succ n ih =>
    intro pool groups used h1 h2 h3
    unfold subspaceLoop
    by_cases hav : (pool.filter (fun i => decide (i ∉ used))).length < 4
    · rw [if_pos hav]
      exact ⟨h1, h2, h3⟩
    · rw [if_neg hav]
      by_cases hb : (build_one_group (scoreFnOf cfg dist df) (groupOkOf cfg df) compat
          (pool.filter (fun i => decide (i ∉ used)))
          ((pool.filter (fun i => decide (i ∉ used))).map
            (fun i => pool.findIdx (fun j => decide (j = i)))) cfg.groupSize).isEmpty = true
      · rw [if_pos hb]
        exact ⟨h1, h2, h3⟩
      · rw [if_neg hb]
        rcases build_one_group_spec (scoreFnOf cfg dist df) (groupOkOf cfg df) compat
            (pool.filter (fun i => decide (i ∉ used)))
            ((pool.filter (fun i => decide (i ∉ used))).map
              (fun i => pool.findIdx (fun j => decide (j = i)))) cfg.groupSize _ rfl with
          hnil | ⟨hge, hle, hnd, hsub⟩
        · rw [hnil] at hb
          exact absurd (by simp) hb
        · have hgnotused : ∀ i ∈ build_one_group (scoreFnOf cfg dist df) (groupOkOf cfg df)
              compat (pool.filter (fun i => decide (i ∉ used)))
              ((pool.filter (fun i => decide (i ∉ used))).map
                (fun i => pool.findIdx (fun j => decide (j = i)))) cfg.groupSize,
              i ∉ used := by
            intro i hi
            have hmem := hsub i hi
            rw [List.mem_filter] at hmem
            simpa using hmem.2
          apply ih
          · rw [List.pairwise_append]
            refine ⟨h1, by simp, ?_⟩
            intro g hg g2 hg2
            rw [List.mem_singleton] at hg2
            subst hg2
            intro i hig
            exact fun higr => hgnotused i higr (h3 g hg i hig)
          · intro g hg
            rcases List.mem_append.mp hg with h | h
            · exact h2 g h
            · rw [List.mem_singleton] at h
              exact h ▸ ⟨hge, hle, hnd⟩
          · intro g hg i hig
            rw [List.mem_append]
            rcases List.mem_append.mp hg with h | h
            · exact Or.inl (h3 g h i hig)
            · rw [List.mem_singleton] at h
              exact Or.inr (h ▸ hig)

theorem runBucket_invariant (cfg : AlgoCfg) (dist : List ℚ → ℚ) (df : List Row)
    (st : List (List ℕ) × List ℕ) (k : List String)
    (h1 : st.1.Pairwise List.Disjoint)
    (h2 : ∀ g ∈ st.1, 4 ≤ g.length ∧ g.length ≤ cfg.groupSize ∧ g.Nodup)
    (h3 : ∀ g ∈ st.1, ∀ i ∈ g, i ∈ st.2) :
    (runBucket cfg dist df st k).1.Pairwise List.Disjoint ∧
    (∀ g ∈ (runBucket cfg dist df st k).1,
      4 ≤ g.length ∧ g.length ≤ cfg.groupSize ∧ g.Nodup) ∧
    (∀ g ∈ (runBucket cfg dist df st k).1, ∀ i ∈ g, i ∈ (runBucket cfg dist df st k).2) := by
  unfold runBucket
  by_cases hp : ((bucketOf df k).filter (fun i => decide (i ∉ st.2))).length < 4
  · rw [if_pos hp]
    exact ⟨h1, h2, h3⟩
  · rw [if_neg hp]
    exact subspaceLoop_invariant cfg dist df _ _ _ _ _ h1 h2 h3

theorem foldl_runBucket_invariant (cfg : AlgoCfg) (dist : List ℚ → ℚ) (df : List Row) :
    ∀ (keys : List (List String)) (st : List (List ℕ) × List ℕ),
      st.1.Pairwise List.Disjoint →
      (∀ g ∈ st.1, 4 ≤ g.length ∧ g.length ≤ cfg.groupSize ∧ g.Nodup) →
      (∀ g ∈ st.1, ∀ i ∈ g, i ∈ st.2) →
      (keys.foldl (runBucket cfg dist df) st).1.Pairwise List.Disjoint ∧
      (∀ g ∈ (keys.foldl (runBucket cfg dist df) st).1,
        4 ≤ g.length ∧ g.length ≤ cfg.groupSize ∧ g.Nodup) ∧
      (∀ g ∈ (keys.foldl (runBucket cfg dist df) st).1,
        ∀ i ∈ g, i ∈ (keys.foldl (runBucket cfg dist df) st).2) := by
  intro keys
  induction keys with
  | nil =>
    intro st h1 h2 h3
    exact ⟨h1, h2, h3⟩
  | cons k ks ih =>
    intro st h1 h2 h3
    rw [List.foldl_cons]
    obtain ⟨g1, g2, g3⟩ := runBucket_invariant cfg dist df st k h1 h2 h3
    exact ih (runBucket cfg dist df st k) g1 g2 g3

/-!  Claim theorems. -/

/-- C1: every compatibility matrix built for a subspace is reflexive and
symmetric: for every configuration, record list and all indices i and j, the
diagonal entry is true and entry (i, j) equals entry (j, i). -/
theorem C1_compat_symmetric_reflexive (cfg : AlgoCfg) (rows : List Row) (i j : ℕ) :
    build_compatibility_matrix cfg rows i i = true ∧
    build_compatibility_matrix cfg rows i j = build_compatibility_matrix cfg rows j i := by
  constructor
  · rw [build_compatibility_matrix, if_pos rfl]
  · unfold build_compatibility_matrix
    by_cases hij : i = j
    · rw [hij]
    · rw [if_neg hij, if_neg (fun h => hij h.symm)]
      exact pairCompat_comm cfg _ _

/-- C2 counterexample: with a policy whose fallback min_group_size is 5, a
subspace of five records on one numeric-tolerance field emits the group
[3, 0, 1, 2] of size 4, so an assembled group smaller than the configured
minimum group size is emitted rather than discarded. -/
theorem C2_counterexample_min_size_ignored :
    [3, 0, 1, 2] ∈ (engineProcessSubspace engCfgTol2 5 6 (scoreFnOf cfgTol2 dist0 dfTol2)
      (groupOkOf cfgTol2 dfTol2) engRowsTol2 [0, 1, 2, 3, 4] [0, 1, 2, 3, 4]).1 ∧
    ([3, 0, 1, 2] : List ℕ).length < 5 := by
  constructor
  · with_unfolding_all decide
  · decide

/-- C2 (amended): every group emitted by a make_groups run has size between 4
and the configured target group size.  The lower bound 4 is the builder's
hardcoded minimum (which coincides with the policy default); a configured
min_group_size different from 4 is used only as a pool-size gate and is not
enforced on the emitted group size. -/
theorem C2_emitted_group_size_bounds (cfg : AlgoCfg) (dist : List ℚ → ℚ) (df : List Row)
    (g : List ℕ) (hg : g ∈ make_groups cfg dist df) :
    4 ≤ g.length ∧ g.length ≤ cfg.groupSize := by
  unfold make_groups at hg
  have h := (foldl_runBucket_invariant cfg dist df (firstKeys df) ([], [])
    (by simp) (by simp) (by simp)).2.1 g hg
  exact ⟨h.1, h.2.1⟩

/-- C2 witness: the group emitted by the concrete five-record run has size
between 4 and the configured target size 6. -/
theorem C2_emitted_group_size_bounds_witness :
    4 ≤ ([3, 0, 1, 2] : List ℕ).length ∧ ([3, 0, 1, 2] : List ℕ).length ≤ cfgTol2.groupSize :=
  C2_emitted_group_size_bounds cfgTol2 dist0 dfTol2 [3, 0, 1, 2] (by with_unfolding_all decide)

/-- C3: the groups emitted by one make_groups run are pairwise disjoint: no
record index appears in more than one emitted group, across all subspaces of
the run. -/
theorem C3_groups_pairwise_disjoint (cfg : AlgoCfg) (dist : List ℚ → ℚ) (df : List Row) :
    (make_groups cfg dist df).Pairwise List.Disjoint := by
  unfold make_groups
  exact (foldl_runBucket_invariant cfg dist df (firstKeys df) ([], [])
    (by simp) (by simp) (by simp)).1

/-- C4 counterexample: in the engine matrix builder, the pair of two records
of which the first has a missing value on the single numeric-tolerance field
is left compatible, although the claim requires a pair with a missing value
to be incompatible on that field. -/
theorem C4_counterexample_engine_missing_passes :
    ¬ (engine_build_compatibility_matrix engCfgTol1 engRowsMissing 0 1 = true ↔
        ∃ x y, (engRowsMissing.getD 0 defEngRow).nums.getD 0 none = some x ∧
          (engRowsMissing.getD 1 defEngRow).nums.getD 0 none = some y ∧
          |x - y| ≤ engCfgTol1.tols.getD 0 0) := by
  intro h
  obtain ⟨x, y, hx, _, _⟩ := h.mp (by with_unfolding_all rfl)
  simp [engRowsMissing, engRowNum] at hx

/-- C4 (amended): in the worker's vectorized matrix builder, for every hard
numeric-tolerance field and every off-diagonal pair, the layer entry is true
iff both values are present and within the tolerance; a missing value makes
the pair incompatible on that field.  (The API engine's own matrix builder
differs: it skips the check when either value is missing, leaving such pairs
compatible on the field.) -/
theorem C4_numeric_tolerance_layer (tol : ℚ) (vals : List (Option ℚ)) (i j : ℕ)
    (hij : i ≠ j) :
    numericTolLayer tol vals i j = true ↔
      ∃ x y, vals.getD i none = some x ∧ vals.getD j none = some y ∧ |x - y| ≤ tol := by
  unfold numericTolLayer numLayer
  rw [if_neg hij]
  cases vals.getD i none <;> cases vals.getD j none <;> simp

/-- C4 witness: the layer entry of the pair (0, 1) on values 0 and 1 with
tolerance 1 is characterized as claimed. -/
theorem C4_numeric_tolerance_layer_witness :
    numericTolLayer 1 [some 0, some 1] 0 1 = true ↔
      ∃ x y, ([some 0, some 1] : List (Option ℚ)).getD 0 none = some x ∧
        ([some 0, some 1] : List (Option ℚ)).getD 1 none = some y ∧ |x - y| ≤ 1 :=
  C4_numeric_tolerance_layer 1 [some 0, some 1] 0 1 (by decide)

/-- C5 counterexample: with a single band 20..30 of max_spread 40 and
cross-band allowed, the ages 50 and 25 satisfy the claimed relation (no
shared band, cross-band allowed, difference 25 within the largest max_spread
40 of a band containing either age), yet the code reports them incompatible,
because the age 50 lies in no band at all. -/
theorem C5_counterexample_out_of_band_age :
    ageCompatClaimC5 rulesOneBand 50 25 = true ∧
    check_age_compatibility rulesOneBand 50 25 = false := by
  constructor
  · with_unfolding_all rfl
  · with_unfolding_all rfl

/-- C5 (amended): under band rules (no legacy max_age_difference), two
present ages are compatible iff either they share a band and their difference
is within every max_spread declared on a shared band (no bound when none is
declared), or they share no band, each lies in at least one band, cross-band
matching is allowed, and their difference is within the largest max_spread
declared on a band containing either age (taken as 0 when none is declared);
a missing age is incompatible with every record. -/
theorem C5_age_compatibility_semantics (R : AgeRules) (x y : ℚ)
    (hleg : R.maxAgeDifference = none) :
    check_age_compatibility R x y = ageCompatAmendedC5 R x y ∧
    (∀ b, check_age_compatibility_opt (some R) none b = false) ∧
    (∀ a, check_age_compatibility_opt (some R) a none = false) := by
  refine ⟨check_age_eq_amended R x y hleg, fun b => ?_, fun a => ?_⟩
  · cases b <;> rfl
  · cases a <;> rfl

/-- C5 witness: for the concrete one-band rules, the code agrees with the
amended relation at ages 25 and 26, and a missing age is incompatible. -/
theorem C5_age_compatibility_semantics_witness :
    check_age_compatibility rulesOneBand 25 26 = ageCompatAmendedC5 rulesOneBand 25 26 ∧
    check_age_compatibility_opt (some rulesOneBand) none (some 25) = false :=
  ⟨(C5_age_compatibility_semantics rulesOneBand 25 26 rfl).1,
   (C5_age_compatibility_semantics rulesOneBand 25 26 rfl).2.1 (some 25)⟩

/-- C6: a record whose raw value on a hard categorical field is one of the
observed flexible answers passes the pairwise categorical constraint against
every record whose value is a concrete observed option of the field, in both
argument orders: the wildcard expands to the concrete option set, which
contains the other record's singleton. -/
theorem C6_wildcard_bridges_concrete (c : NormCtx) (a b : String)
    (haf : a ∈ c.flex) (hac : a ∈ c.colValues) (hbc : b ∈ c.colValues)
    (hbf : b ∉ c.flex) :
    categorical_pass c a b = true ∧ categorical_pass c b a = true := by
  have hbconc : b ∈ concreteInCol c := by
    rw [concreteInCol, List.mem_filter]
    exact ⟨hbc, by simpa using hbf⟩
  have haflex : a ∈ flexibleInCol c := by
    rw [flexibleInCol, List.mem_filter]
    exact ⟨hac, by simpa using haf⟩
  have h1 : (flexibleInCol c).isEmpty = false := by
    cases h : flexibleInCol c with
    | nil => rw [h] at haflex; cases haflex
    | cons _ _ => rfl
  have h2 : (concreteInCol c).isEmpty = false := by
    cases h : concreteInCol c with
    | nil => rw [h] at hbconc; cases hbconc
    | cons _ _ => rfl
  have hrules : hasRules c = true := by
    rw [hasRules, h1, h2]
    rfl
  have hna : normalize_answer c a = concreteInCol c := by
    rw [normalize_answer, if_pos]
    rw [Bool.and_eq_true]
    exact ⟨hrules, by simpa using haflex⟩
  have hnb : normalize_answer c b = [b] := by
    rw [normalize_answer, if_neg]
    rw [Bool.and_eq_true]
    rintro ⟨_, hbflex⟩
    rw [decide_eq_true_eq] at hbflex
    rw [flexibleInCol, List.mem_filter] at hbflex
    exact hbf (by simpa using hbflex.2)
  constructor
  · rw [categorical_pass, hna, hnb, overlap, List.any_eq_true]
    exact ⟨b, hbconc, by simp⟩
  · rw [categorical_pass, hna, hnb, overlap, List.any_eq_true]
    exact ⟨b, by simp, by simpa using hbconc⟩

/-- C6 witness: in the concrete context where w is flexible and x is a
concrete observed option, the categorical constraint passes both ways. -/
theorem C6_wildcard_bridges_concrete_witness :
    categorical_pass ctxWild ("w") ("x") = true ∧
    categorical_pass ctxWild ("x") ("w") = true :=
  C6_wildcard_bridges_concrete ctxWild ("w") ("x") (by decide) (by decide) (by decide)
    (by decide)

/-- C7: at every extension step of the greedy builder, the candidate the
argmax scan selects is feasible and its group score is greatest over the
feasible set of the step; among candidates tied at the maximal score the one
with the lowest index is chosen (the feasible set is scanned in ascending
index order, which is how the driver supplies it). -/
theorem C7_extension_step_argmax (cfg : AlgoCfg) (dist : List ℚ → ℚ) (df : List Row)
    (compat : ℕ → ℕ → Bool) (group remaining : List (ℕ × ℕ)) (x : ℕ × ℕ)
    (hsorted : ((feasibleFilter compat (groupOkOf cfg df) group remaining).map
      Prod.fst).Sorted (· < ·))
    (hx : pickBest (scoreFnOf cfg dist df) (group.map Prod.fst)
      (feasibleFilter compat (groupOkOf cfg df) group remaining) = some x) :
    x ∈ feasibleFilter compat (groupOkOf cfg df) group remaining ∧
    ∀ y ∈ feasibleFilter compat (groupOkOf cfg df) group remaining,
      scoreFnOf cfg dist df (group.map Prod.fst ++ [y.1]) ≤
        scoreFnOf cfg dist df (group.map Prod.fst ++ [x.1]) ∧
      (scoreFnOf cfg dist df (group.map Prod.fst ++ [y.1]) =
        scoreFnOf cfg dist df (group.map Prod.fst ++ [x.1]) → x.1 ≤ y.1) := by
  obtain ⟨F1, F2, hdec, h1, h2⟩ := pickBest_spec _ _ _ _ hx
  constructor
  · rw [hdec]
    exact List.mem_append.mpr (Or.inr (List.mem_cons_self _ _))
  · intro y hy
    have hsorted2 := hsorted
    rw [hdec, List.map_append, List.map_cons] at hsorted2
    rw [List.Sorted, List.pairwise_append] at hsorted2
    obtain ⟨_, hson, _⟩ := hsorted2
    rw [List.pairwise_cons] at hson
    rw [hdec] at hy
    rcases List.mem_append.mp hy with h | h
    · exact ⟨le_of_lt (h1 y h), fun he => absurd he (ne_of_lt (h1 y h))⟩
    · rcases List.mem_cons.mp h with h | h
      · subst h
        exact ⟨le_refl _, fun _ => le_refl _⟩
      · exact ⟨h2 y h, fun _ => le_of_lt (hson.1 y.1 (List.mem_map_of_mem Prod.fst h))⟩

/-- C7 witness: a concrete extension step in which the scan returns the
first of two equal-score feasible candidates. -/
theorem C7_extension_step_argmax_witness :
    (1, 1) ∈ feasibleFilter (fun _ _ => true) (groupOkOf cfgTol2 dfTol2)
      [(0, 0)] [(1, 1), (2, 2)] ∧
    ∀ y ∈ feasibleFilter (fun _ _ => true) (groupOkOf cfgTol2 dfTol2)
        [(0, 0)] [(1, 1), (2, 2)],
      scoreFnOf cfgTol2 dist0 dfTol2 (([(0, 0)] : List (ℕ × ℕ)).map Prod.fst ++ [y.1]) ≤
        scoreFnOf cfgTol2 dist0 dfTol2 (([(0, 0)] : List (ℕ × ℕ)).map Prod.fst ++ [(1, 1).1]) ∧
      (scoreFnOf cfgTol2 dist0 dfTol2 (([(0, 0)] : List (ℕ × ℕ)).map Prod.fst ++ [y.1]) =
        scoreFnOf cfgTol2 dist0 dfTol2 (([(0, 0)] : List (ℕ × ℕ)).map Prod.fst ++ [(1, 1).1]) →
        (1, 1).1 ≤ y.1) :=
  C7_extension_step_argmax cfgTol2 dist0 dfTol2 (fun _ _ => true) [(0, 0)] [(1, 1), (2, 2)]
    (1, 1) (by with_unfolding_all decide) (by with_unfolding_all rfl)

/-- C8: the seed is the candidate with the smallest compatibility degree,
where the degree of a candidate is the row sum of the compatibility matrix
over the available local indices excluding self; ties are broken by lowest
index (candidates are scanned in ascending index order, which is how the
driver supplies them). -/
theorem C8_seed_min_degree (compat : ℕ → ℕ → Bool) (ps : List (ℕ × ℕ)) (s : ℕ × ℕ)
    (hsorted : (ps.map Prod.fst).Sorted (· < ·))
    (hs : seedOf compat ps = some s) :
    s ∈ ps ∧
    ∀ p ∈ ps,
      degreeOf compat (ps.map Prod.snd) s.2 ≤ degreeOf compat (ps.map Prod.snd) p.2 ∧
      (degreeOf compat (ps.map Prod.snd) p.2 = degreeOf compat (ps.map Prod.snd) s.2 →
        s.1 ≤ p.1) := by
  obtain ⟨F1, F2, hdec, h1, h2⟩ := seedOf_spec compat ps s hs
  constructor
  · rw [hdec]
    exact List.mem_append.mpr (Or.inr (List.mem_cons_self _ _))
  · intro p hp
    have hsorted2 := hsorted
    rw [hdec, List.map_append, List.map_cons] at hsorted2
    rw [List.Sorted, List.pairwise_append] at hsorted2
    obtain ⟨_, hson, _⟩ := hsorted2
    rw [List.pairwise_cons] at hson
    have hp2 := hp
    rw [hdec] at hp2
    rcases List.mem_append.mp hp2 with h | h
    · exact ⟨le_of_lt (h1 p h), fun he => absurd he (ne_of_lt (h1 p h)).symm⟩
    · rcases List.mem_cons.mp h with h | h
      · subst h
        exact ⟨le_refl _, fun _ => le_refl _⟩
      · exact ⟨h2 p h, fun _ => le_of_lt (hson.1 p.1 (List.mem_map_of_mem Prod.fst h))⟩

/-- C8 witness: with a complete two-candidate matrix both degrees are 1 and
the scan returns the first candidate. -/
theorem C8_seed_min_degree_witness :
    (0, 0) ∈ ([(0, 0), (1, 1)] : List (ℕ × ℕ)) ∧
    ∀ p ∈ ([(0, 0), (1, 1)] : List (ℕ × ℕ)),
      degreeOf (fun i j => decide (i ≠ j)) (([(0, 0), (1, 1)] : List (ℕ × ℕ)).map Prod.snd)
          (0, 0).2 ≤
        degreeOf (fun i j => decide (i ≠ j)) (([(0, 0), (1, 1)] : List (ℕ × ℕ)).map Prod.snd)
          p.2 ∧
      (degreeOf (fun i j => decide (i ≠ j)) (([(0, 0), (1, 1)] : List (ℕ × ℕ)).map Prod.snd)
          p.2 =
        degreeOf (fun i j => decide (i ≠ j)) (([(0, 0), (1, 1)] : List (ℕ × ℕ)).map Prod.snd)
          (0, 0).2 → (0, 0).1 ≤ p.1) :=
  C8_seed_min_degree (fun i j => decide (i ≠ j)) [(0, 0), (1, 1)] (0, 0) (by decide)
    (by decide)

/-- C9 counterexample: with the fallback configuration weights, the score of
a concrete two-member group with one soft categorical diversity field is
0.1 times the categorical term, not the value the claimed default weights
(1.0, 0.2, 0.4, 0.5) would give. -/
theorem C9_counterexample_default_weights :
    group_score cfgOneCat dist0 [rowCat ("a"), rowCat ("b")] ≠
      1 * diversityTerm cfgOneCat [rowCat ("a"), rowCat ("b")] +
      (2/10) * simTerm cfgOneCat dist0 [rowCat ("a"), rowCat ("b")] +
      (4/10) * catTerm cfgOneCat [rowCat ("a"), rowCat ("b")] +
      (5/10) * multiTerm cfgOneCat [rowCat ("a"), rowCat ("b")] := by
  with_unfolding_all decide

/-- C9 (amended): for every non-empty candidate group the final score equals
beta times the diversity term plus gamma times the similarity bonus plus
kappa times the categorical-diversity term plus mu times the multi-choice
overlap term, with the weights taken from the configuration; the hardcoded
fallback weights are (1.0, 0.2, 0.1, 0.1). -/
theorem C9_score_linear_combination (cfg : AlgoCfg) (dist : List ℚ → ℚ) (rows : List Row)
    (h : rows ≠ []) :
    group_score cfg dist rows =
      cfg.weights.beta * diversityTerm cfg rows + cfg.weights.gamma * simTerm cfg dist rows +
      cfg.weights.kappa * catTerm cfg rows + cfg.weights.mu * multiTerm cfg rows ∧
    defaultConfigWeights = ⟨1, 1/5, 1/10, 1/10⟩ := by
  cases rows with
  | nil => exact absurd rfl h
  | cons r t => exact ⟨rfl, rfl⟩

/-- C9 witness: the decomposition instantiated on a concrete one-member
group. -/
theorem C9_score_linear_combination_witness :
    group_score cfgOneCat dist0 [rowCat ("a")] =
      cfgOneCat.weights.beta * diversityTerm cfgOneCat [rowCat ("a")] +
      cfgOneCat.weights.gamma * simTerm cfgOneCat dist0 [rowCat ("a")] +
      cfgOneCat.weights.kappa * catTerm cfgOneCat [rowCat ("a")] +
      cfgOneCat.weights.mu * multiTerm cfgOneCat [rowCat ("a")] ∧
    defaultConfigWeights = ⟨1, 1/5, 1/10, 1/10⟩ :=
  C9_score_linear_combination cfgOneCat dist0 [rowCat ("a")] (by simp)

/-- C10: a missing (NaN) or empty-string multi-choice cell converts to the
empty set, so it fails the pairwise multi-overlap check against every other
record in both orders, and its off-diagonal entries in the multi-choice
layer of the compatibility matrix are all false. -/
theorem C10_missing_multi_incompatible (c : NormCtx) (v : Option String)
    (hv : v = none ∨ v = some ("")) :
    to_set c v = [] ∧
    (∀ b : Option String, overlap (to_set c v) (to_set c b) = false ∧
      overlap (to_set c b) (to_set c v) = false) ∧
    (∀ (vals : List (Option String)) (i j : ℕ), i ≠ j → vals.getD i none = v →
      multiChoiceLayer c vals i j = false) := by
  have hempty : to_set c v = [] := by
    rcases hv with h | h
    · rw [h]; rfl
    · rw [h]; simp [to_set]
  refine ⟨hempty, fun b => ⟨?_, ?_⟩, ?_⟩
  · rw [hempty]; rfl
  · rw [hempty]; exact overlap_nil_right _
  · intro vals i j hij hvi
    rw [multiChoiceLayer, if_neg hij, hvi, hempty]
    rfl

/-- C10 witness: a NaN cell gives the empty set and fails against a concrete
two-option cell. -/
theorem C10_missing_multi_incompatible_witness :
    to_set ctxWild none = [] ∧
    overlap (to_set ctxWild none) (to_set ctxWild (some ("x,y"))) = false :=
  ⟨(C10_missing_multi_incompatible ctxWild none (Or.inl rfl)).1,
   ((C10_missing_multi_incompatible ctxWild none (Or.inl rfl)).2.1 (some ("x,y"))).1⟩
